import Mathlib

/-!
Verification of the git-wiki content storage engine.

The definitions below are a shallow embedding of the wiki's storage layer
(`app.py` and `wiki/wikigit.py`): the plain filesystem backend `Wiki`, the
git-backed `WikiGit` decorator, the metadata/body record format, and the
user account store.  Python byte strings are modelled as `List Nat` (byte
values) where the source manipulates raw bytes (passwords, hashes) and as
`List Char` where it manipulates text.  Filesystem mutation is modelled as
an explicit event trace (`FsEvent`) interpreted over a path-to-content map,
so that atomicity and confinement properties can be stated about the exact
sequence of system calls the source performs.
-/

set_option maxRecDepth 100000

/-- Characters of a string literal, used to state concrete inputs. -/
def lc (s : String) : List Char := s.data

/-- Byte values of an ASCII string literal (Python 2 `str` values are byte
strings, so `hashlib` and `binascii` operate on byte lists). -/
def lcB (s : String) : List Nat := s.data.map Char.toNat

/-! ### SHA-512 (`hashlib.sha512`) and hex codecs (`binascii`)

`make_salted_hash` calls `hashlib.sha512`; the full FIPS 180-4 SHA-512 is
embedded here over byte lists, with word arithmetic done modulo `2 ^ 64`
(the operands of the bitwise operations are always below `2 ^ 64`, so the
results are too). -/

/-- The modulus of SHA-512 word arithmetic, `2 ^ 64`. -/
def M64 : Nat := 18446744073709551616

/-- 64-bit exclusive or. -/
def xor64 (a b : Nat) : Nat := a ^^^ b

/-- 64-bit conjunction. -/
def and64 (a b : Nat) : Nat := a &&& b

/-- 64-bit complement (the argument is below `2 ^ 64`). -/
def not64 (a : Nat) : Nat := M64 - 1 - a

/-- Rotate a 64-bit word right by `k` bits, arithmetically. -/
def rotr (k a : Nat) : Nat := (a / 2 ^ k + a % 2 ^ k * 2 ^ (64 - k)) % M64

/-- Shift a 64-bit word right by `k` bits. -/
def shr (k a : Nat) : Nat := a / 2 ^ k

/-- SHA-512 big sigma 0. -/
def bigS0 (a : Nat) : Nat := xor64 (rotr 28 a) (xor64 (rotr 34 a) (rotr 39 a))

/-- SHA-512 big sigma 1. -/
def bigS1 (e : Nat) : Nat := xor64 (rotr 14 e) (xor64 (rotr 18 e) (rotr 41 e))

/-- SHA-512 small sigma 0. -/
def smS0 (x : Nat) : Nat := xor64 (rotr 1 x) (xor64 (rotr 8 x) (shr 7 x))

/-- SHA-512 small sigma 1. -/
def smS1 (x : Nat) : Nat := xor64 (rotr 19 x) (xor64 (rotr 61 x) (shr 6 x))

/-- SHA-512 choice function. -/
def sha2Ch (e f g : Nat) : Nat := xor64 (and64 e f) (and64 (not64 e) g)

/-- SHA-512 majority function. -/
def sha2Maj (a b c : Nat) : Nat := xor64 (and64 a b) (xor64 (and64 a c) (and64 b c))

/-- The 80 SHA-512 round constants (fractional parts of the cube roots of
the first 80 primes). -/
def K512 : List Nat := [
  4794697086780616226, 8158064640168781261,  -- 0x428a2f98d728ae22 0x7137449123ef65cd
  13096744586834688815, 16840607885511220156,  -- 0xb5c0fbcfec4d3b2f 0xe9b5dba58189dbbc
  4131703408338449720, 6480981068601479193,  -- 0x3956c25bf348b538 0x59f111f1b605d019
  10538285296894168987, 12329834152419229976,  -- 0x923f82a4af194f9b 0xab1c5ed5da6d8118
  15566598209576043074, 1334009975649890238,  -- 0xd807aa98a3030242 0x12835b0145706fbe
  2608012711638119052, 6128411473006802146,  -- 0x243185be4ee4b28c 0x550c7dc3d5ffb4e2
  8268148722764581231, 9286055187155687089,  -- 0x72be5d74f27b896f 0x80deb1fe3b1696b1
  11230858885718282805, 13951009754708518548,  -- 0x9bdc06a725c71235 0xc19bf174cf692694
  16472876342353939154, 17275323862435702243,  -- 0xe49b69c19ef14ad2 0xefbe4786384f25e3
  1135362057144423861, 2597628984639134821,  -- 0x0fc19dc68b8cd5b5 0x240ca1cc77ac9c65
  3308224258029322869, 5365058923640841347,  -- 0x2de92c6f592b0275 0x4a7484aa6ea6e483
  6679025012923562964, 8573033837759648693,  -- 0x5cb0a9dcbd41fbd4 0x76f988da831153b5
  10970295158949994411, 12119686244451234320,  -- 0x983e5152ee66dfab 0xa831c66d2db43210
  12683024718118986047, 13788192230050041572,  -- 0xb00327c898fb213f 0xbf597fc7beef0ee4
  14330467153632333762, 15395433587784984357,  -- 0xc6e00bf33da88fc2 0xd5a79147930aa725
  489312712824947311, 1452737877330783856,  -- 0x06ca6351e003826f 0x142929670a0e6e70
  2861767655752347644, 3322285676063803686,  -- 0x27b70a8546d22ffc 0x2e1b21385c26c926
  5560940570517711597, 5996557281743188959,  -- 0x4d2c6dfc5ac42aed 0x53380d139d95b3df
  7280758554555802590, 8532644243296465576,  -- 0x650a73548baf63de 0x766a0abb3c77b2a8
  9350256976987008742, 10552545826968843579,  -- 0x81c2c92e47edaee6 0x92722c851482353b
  11727347734174303076, 12113106623233404929,  -- 0xa2bfe8a14cf10364 0xa81a664bbc423001
  14000437183269869457, 14369950271660146224,  -- 0xc24b8b70d0f89791 0xc76c51a30654be30
  15101387698204529176, 15463397548674623760,  -- 0xd192e819d6ef5218 0xd69906245565a910
  17586052441742319658, 1182934255886127544,  -- 0xf40e35855771202a 0x106aa07032bbd1b8
  1847814050463011016, 2177327727835720531,  -- 0x19a4c116b8d2d0c8 0x1e376c085141ab53
  2830643537854262169, 3796741975233480872,  -- 0x2748774cdf8eeb99 0x34b0bcb5e19b48a8
  4115178125766777443, 5681478168544905931,  -- 0x391c0cb3c5c95a63 0x4ed8aa4ae3418acb
  6601373596472566643, 7507060721942968483,  -- 0x5b9cca4f7763e373 0x682e6ff3d6b2b8a3
  8399075790359081724, 8693463985226723168,  -- 0x748f82ee5defb2fc 0x78a5636f43172f60
  9568029438360202098, 10144078919501101548,  -- 0x84c87814a1f0ab72 0x8cc702081a6439ec
  10430055236837252648, 11840083180663258601,  -- 0x90befffa23631e28 0xa4506cebde82bde9
  13761210420658862357, 14299343276471374635,  -- 0xbef9a3f7b2c67915 0xc67178f2e372532b
  14566680578165727644, 15097957966210449927,  -- 0xca273eceea26619c 0xd186b8c721c0c207
  16922976911328602910, 17689382322260857208,  -- 0xeada7dd6cde0eb1e 0xf57d4f7fee6ed178
  500013540394364858, 748580250866718886,  -- 0x06f067aa72176fba 0x0a637dc5a2c898a6
  1242879168328830382, 1977374033974150939,  -- 0x113f9804bef90dae 0x1b710b35131c471b
  2944078676154940804, 3659926193048069267,  -- 0x28db77f523047d84 0x32caab7b40c72493
  4368137639120453308, 4836135668995329356,  -- 0x3c9ebe0a15c9bebc 0x431d67c49c100d4c
  5532061633213252278, 6448918945643986474,  -- 0x4cc5d4becb3e42b6 0x597f299cfc657e2a
  6902733635092675308, 7801388544844847127]  -- 0x5fcb6fab3ad6faec 0x6c44198c4a475817

/-- The SHA-512 initial hash value (fractional parts of the square roots of
the first 8 primes). -/
def H512 : List Nat := [
  7640891576956012808, 13503953896175478587,  -- 0x6a09e667f3bcc908 0xbb67ae8584caa73b
  4354685564936845355, 11912009170470909681,  -- 0x3c6ef372fe94f82b 0xa54ff53a5f1d36f1
  5840696475078001361, 11170449401992604703,  -- 0x510e527fade682d1 0x9b05688c2b3e6c1f
  2270897969802886507, 6620516959819538809]  -- 0x1f83d9abfb41bd6b 0x5be0cd19137e2179

/-- Working state of the SHA-512 compression function. -/
structure Sha512St where
  a : Nat
  b : Nat
  c : Nat
  d : Nat
  e : Nat
  f : Nat
  g : Nat
  h : Nat

/-- One SHA-512 round. -/
def sha512Round (st : Sha512St) (kw : Nat × Nat) : Sha512St :=
  let t1 := (st.h + bigS1 st.e + sha2Ch st.e st.f st.g + kw.1 + kw.2) % M64
  let t2 := (bigS0 st.a + sha2Maj st.a st.b st.c) % M64
  ⟨(t1 + t2) % M64, st.a, st.b, st.c, (st.d + t1) % M64, st.e, st.f, st.g⟩

/-- Extend the 16 message words of a block to the 80-entry schedule. -/
def sha512Schedule (ws16 : List Nat) : List Nat :=
  (List.range 64).foldl
    (fun ws _ =>
      let n := ws.length
      ws ++ [(smS1 (ws.getD (n - 2) 0) + ws.getD (n - 7) 0 +
              smS0 (ws.getD (n - 15) 0) + ws.getD (n - 16) 0) % M64])
    ws16

/-- The 16 big-endian 64-bit words of a 128-byte block. -/
def sha512Words (block : List Nat) : List Nat :=
  (List.range 16).map fun i =>
    ((block.drop (8 * i)).take 8).foldl (fun acc byte => acc * 256 + byte) 0

/-- The SHA-512 compression function on one 128-byte block. -/
def sha512Compress (hs : List Nat) (block : List Nat) : List Nat :=
  let ws := sha512Schedule (sha512Words block)
  let st0 : Sha512St :=
    ⟨hs.getD 0 0, hs.getD 1 0, hs.getD 2 0, hs.getD 3 0,
     hs.getD 4 0, hs.getD 5 0, hs.getD 6 0, hs.getD 7 0⟩
  let st := (K512.zip ws).foldl sha512Round st0
  [(hs.getD 0 0 + st.a) % M64, (hs.getD 1 0 + st.b) % M64,
   (hs.getD 2 0 + st.c) % M64, (hs.getD 3 0 + st.d) % M64,
   (hs.getD 4 0 + st.e) % M64, (hs.getD 5 0 + st.f) % M64,
   (hs.getD 6 0 + st.g) % M64, (hs.getD 7 0 + st.h) % M64]

/-- Merkle-Damgard padding of a byte message to a multiple of 128 bytes. -/
def sha512Pad (msg : List Nat) : List Nat :=
  let L := msg.length
  msg ++ 0x80 :: List.replicate ((128 - (L + 17) % 128) % 128) 0 ++
    ((List.range 16).map fun i => 8 * L / 2 ^ (8 * (15 - i)) % 256)

/-- The 8 big-endian bytes of a 64-bit word. -/
def wordBytes (w : Nat) : List Nat :=
  (List.range 8).map fun i => w / 2 ^ (8 * (7 - i)) % 256

/-- SHA-512 of a byte message, as the 64 digest bytes. -/
def sha512 (msg : List Nat) : List Nat :=
  let padded := sha512Pad msg
  let blocks := (List.range (padded.length / 128)).map fun i =>
    (padded.drop (128 * i)).take 128
  ((blocks.foldl sha512Compress H512).map wordBytes).flatten

/-- ASCII code of the lowercase hex digit for `n < 16`. -/
def hexDigitCode (n : Nat) : Nat := if n < 10 then 48 + n else 87 + n

/-- `binascii.hexlify`: the lowercase hex encoding of a byte list, itself a
list of ASCII byte values. -/
def hexlify : List Nat → List Nat
  | [] => []
  | byte :: rest => hexDigitCode (byte / 16) :: hexDigitCode (byte % 16) :: hexlify rest

/-- Value of one ASCII hex digit (only applied to well-formed hex input; the
source would raise `binascii.Error` otherwise). -/
def hexVal (code : Nat) : Nat :=
  if 48 ≤ code ∧ code ≤ 57 then code - 48
  else if 97 ≤ code then code - 87 else 0

/-- `binascii.unhexlify`: decode pairs of ASCII hex digits into bytes. -/
def unhexlify : List Nat → List Nat
  | c1 :: c2 :: rest => (hexVal c1 * 16 + hexVal c2) :: unhexlify rest
  | _ => []

/-- `make_salted_hash(password, salt)` (`app.py`): the stored credential is
`hexlify(salt)` followed by the hex digest of
`sha512(salt[0:32] ++ password ++ salt[32:64])`.  The salt is 64 bytes from
`os.urandom` in the source; here it is an explicit argument. -/
def make_salted_hash (password salt : List Nat) : List Nat :=
  hexlify salt ++ hexlify (sha512 (salt.take 32 ++ password ++ salt.drop 32))

/-- `check_hashed_password(password, salted_hash)` (`app.py`): recompute the
salted hash from the salt decoded out of the first 128 stored hex characters
and compare with the stored value. -/
def check_hashed_password (password salted_hash : List Nat) : Bool :=
  make_salted_hash password (unhexlify (salted_hash.take 128)) == salted_hash

/-! ### Python string and path helpers

Models of the Python primitives the storage layer uses: `str.split`,
`str.replace`, `%s` formatting, `os.path.join`, `os.path.dirname`,
`os.path.normpath` and `os.path.commonprefix` (POSIX semantics). -/

/-- `s.split(sep)` for a one-character separator: every field, with empty
fields preserved (`"".split(c) == ['']`). -/
def splitAll (sep : Char) (s : List Char) : List (List Char) :=
  match s with
  | [] => [[]]
  | ch :: rest =>
    match splitAll sep rest with
    | [] => [[]]
    | cur :: parts => if ch = sep then [] :: cur :: parts else (ch :: cur) :: parts

/-- `s.split(sep, 1)` for a multi-character separator, as the two pieces
around the first occurrence, or `none` when the separator does not occur
(in which case Python returns a one-element list and indexing `[1]` raises
`IndexError`). -/
def splitOnce (sep : List Char) (s : List Char) : Option (List Char × List Char) :=
  match s with
  | [] => none
  | ch :: rest =>
    if sep.isPrefixOf s then some ([], s.drop sep.length)
    else (splitOnce sep rest).map fun p => (ch :: p.1, p.2)

/-- Whether `needle` occurs as a contiguous substring of the list. -/
def containsSub (needle : List Char) : List Char → Bool
  | [] => decide (needle = [])
  | ch :: rest => needle.isPrefixOf (ch :: rest) || containsSub needle rest

/-- `body.replace('\r\n', '\n')`: left-to-right, non-overlapping. -/
def pyReplaceCRLF : List Char → List Char
  | '\r' :: '\n' :: rest => '\n' :: pyReplaceCRLF rest
  | ch :: rest => ch :: pyReplaceCRLF rest
  | [] => []

/-- `os.path.join(a, b)` for two components, POSIX semantics. -/
def pyJoin (a b : List Char) : List Char :=
  if b.head? = some '/' then b
  else if a = [] then b
  else if a.getLast? = some '/' then a ++ b
  else a ++ '/' :: b

/-- `os.path.dirname(p)`, POSIX semantics: everything before the last
slash, with trailing slashes stripped unless the head is all slashes. -/
def pyDirname (p : List Char) : List Char :=
  let tailLen := (p.reverse.takeWhile (fun ch => ch ≠ '/')).length
  let head := p.take (p.length - tailLen)
  if head ≠ [] ∧ head.any (fun ch => ch ≠ '/') then
    (head.reverse.dropWhile (fun ch => ch = '/')).reverse
  else head

/-- Number of initial slashes `posixpath.normpath` preserves (two only for
exactly a double slash prefix). -/
def initSlashes (p : List Char) : Nat :=
  if p.take 2 = lc "//" ∧ p.take 3 ≠ lc "///" then 2
  else if p.take 1 = lc "/" then 1 else 0

/-- Component processing loop of `posixpath.normpath`: drop empty and `.`
components; `..` pops the last kept component except at the start of a
relative path or after a kept `..`; a `..` at the root of an absolute path
is dropped.  The accumulator holds kept components in reverse. -/
def normAux (hasRoot : Bool) : List (List Char) → List (List Char) → List (List Char)
  | acc, [] => acc.reverse
  | acc, comp :: rest =>
    if comp = [] ∨ comp = ['.'] then normAux hasRoot acc rest
    else if comp ≠ lc ".." ∨ (¬ hasRoot ∧ acc = []) ∨ acc.head? = some (lc "..") then
      normAux hasRoot (comp :: acc) rest
    else
      match acc with
      | [] => normAux hasRoot [] rest
      | _ :: acc2 => normAux hasRoot acc2 rest

/-- `os.path.normpath(p)`, POSIX semantics. -/
def normpath (p : List Char) : List Char :=
  if p = [] then lc "."
  else
    let isl := initSlashes p
    let comps := normAux (isl ≠ 0) [] (splitAll '/' p)
    let res := List.replicate isl '/' ++ List.intercalate (lc "/") comps
    if res = [] then lc "." else res

/-- `os.path.commonprefix`: longest common string prefix, character-wise. -/
def commonPfx : List Char → List Char → List Char
  | x :: xs, y :: ys => if x = y then x :: commonPfx xs ys else []
  | _, _ => []

/-! ### Filesystem effects

Every mutating storage operation is modelled as the list of system-level
effects it performs, in order, and the effects are interpreted over a
path-to-content map.  Directory creation, fsync, git subprocess calls and
lock transitions do not change any file's content. -/

/-- One system-level effect performed by the storage layer.  The lock
events model the single named interprocess lock (`git-lock`, scoped to the
content root) used by the versioned backend. -/
inductive FsEvent where
  | makedirs (dir : List Char)
  | openTrunc (path : List Char)
  | fileWrite (path : List Char) (data : List Char)
  | fsync (path : List Char)
  | rename (src dst : List Char)
  | gitAdd (path : List Char)
  | gitCommit (msg author : List Char)
  | lockAcquire
  | lockRelease
deriving DecidableEq

/-- Contents of the filesystem, one optional text per path. -/
abbrev Store : Type := List Char → Option (List Char)

/-- Effect of one event on file contents: `open(p, 'w')` truncates, a write
appends to the open file, a rename moves the source's content over the
destination.  The remaining events do not change any file's content. -/
def applyEvent (s : Store) : FsEvent → Store
  | .openTrunc p => fun q => if q = p then some [] else s q
  | .fileWrite p d => fun q => if q = p then some ((s p).getD [] ++ d) else s q
  | .rename src dst => fun q => if q = dst then s src else if q = src then none else s q
  | _ => s

/-- Effect of a sequence of events, first to last. -/
def applyEvents (events : List FsEvent) (s : Store) : Store :=
  events.foldl applyEvent s

/-! ### The plain backend `Wiki` (`app.py`) -/

/-- A Python value stored under a metadata key: the markdown `Meta`
extension produces lists of strings, while the editor form assigns plain
strings through the `title`/`tags` setters. -/
inductive PyVal where
  | str (s : List Char)
  | list (vs : List (List Char))
deriving DecidableEq

/-- Python 2 `repr` of a plain string without characters needing escapes. -/
def pyRepr (s : List Char) : List Char := '\'' :: s ++ ['\'']

/-- `'%s' % value`: a string formats as itself, a list of strings as its
Python `repr` (brackets, quotes, comma-space separators). -/
def pyFmt : PyVal → List Char
  | .str s => s
  | .list vs => '[' :: List.intercalate (lc ", ") (vs.map pyRepr) ++ [']']

/-- `Wiki.path`: `os.path.join(self.root, url + '.md')`. -/
def wikiPath (root url : List Char) : List Char := pyJoin root (url ++ lc ".md")

/-- The metadata header lines `Wiki.save` writes: one
`'%s: %s\n' % (key, value)` line per mapping item, in iteration order. -/
def pageLines (meta : List (List Char × PyVal)) : List (List Char) :=
  meta.map fun kv => kv.1 ++ lc ": " ++ pyFmt kv.2 ++ ['\n']

/-- The full file content `Wiki.save` produces: header lines, one `'\n'`,
then the body with `'\r\n'` normalized to `'\n'`. -/
def pageFileContent (meta : List (List Char × PyVal)) (body : List Char) : List Char :=
  (pageLines meta).flatten ++ '\n' :: pyReplaceCRLF body

/-- `Wiki.save(url, body, meta)` as its event trace: create the parent
directory when missing, open the target path with mode `'w'` (truncating
it), write each metadata line, the separator newline, then the body.  The
source performs no confinement check and no temporary-file indirection
here; `folderExists` records whether `os.path.exists(folder)` held. -/
def wiki_save_events (root url body : List Char) (meta : List (List Char × PyVal))
    (folderExists : Bool) : List FsEvent :=
  let path := wikiPath root url
  (if folderExists then [] else [.makedirs (pyDirname path)]) ++
    .openTrunc path :: (pageLines meta).map (.fileWrite path) ++
    [.fileWrite path ['\n'], .fileWrite path (pyReplaceCRLF body)]

/-- The error `Wiki.move` raises on a destination outside the content root
(a `RuntimeError` in the source; the spec names it `PathEscapeError`). -/
inductive WikiMoveErr where
  | pathEscape (newurl : List Char)
deriving DecidableEq

/-- `Wiki.move(url, newurl)`: resolve both paths, normalize the root, and
fail before any filesystem change when the common string prefix of the
normalized root and the normalized target is shorter than the normalized
root; otherwise create the destination directory when missing and rename. -/
def wiki_move (root url newurl : List Char) (folderExists : Bool) :
    Except WikiMoveErr (List FsEvent) :=
  let source := pyJoin root url ++ lc ".md"
  let target := pyJoin root newurl ++ lc ".md"
  let rootN := normpath root
  if (commonPfx rootN (normpath target)).length < rootN.length then
    .error (.pathEscape newurl)
  else
    .ok ((if folderExists then [] else [.makedirs (pyDirname target)]) ++
      [.rename source target])

/-- `UserManager.write(data)` as its event trace: write the serialized
table to `self.file + '-write'`, flush and fsync it, then atomically rename
it over the table file.  `data` is the serialized JSON text. -/
def user_write_events (file data : List Char) : List FsEvent :=
  [.openTrunc (file ++ lc "-write"), .fileWrite (file ++ lc "-write") data,
   .fsync (file ++ lc "-write"), .rename (file ++ lc "-write") file]

/-! ### The record codec: `Processors.out` (`app.py`)

Loading a page renders it through `Processors.out`: the markdown `meta`
extension parses the leading `key: value` header lines into a mapping of
lowercased keys to lists of values, and the body is
`content.split('\n\n', 1)[1]` — which raises `IndexError` when the content
has no blank-line sequence. -/

/-- A metadata mapping: keys (lowercased) to value lists, insertion
ordered, as the markdown `meta` extension builds it. -/
abbrev MetaMap : Type := List (List Char × List (List Char))

/-- Python whitespace test used by `str.strip`. -/
def isPySpace (ch : Char) : Bool :=
  ch = ' ' || ch = '\t' || ch = '\n' || ch = '\r' || ch = '\x0b' || ch = '\x0c'

/-- `str.strip()`: drop whitespace at both ends. -/
def pyStrip (s : List Char) : List Char :=
  ((s.dropWhile isPySpace).reverse.dropWhile isPySpace).reverse

/-- Characters the meta extension accepts in a key (`[A-Za-z0-9_-]`). -/
def isMetaKeyChar (ch : Char) : Bool :=
  ch.isAlpha || ch.isDigit || ch = '_' || ch = '-'

/-- Match of the meta extension's `META_RE`
(`^[ ]{0,3}(?P<key>[A-Za-z0-9_-]+):\s*(?P<value>.*)`); the value is
returned raw, stripping happens at the use site. -/
def matchMetaLine (line : List Char) : Option (List Char × List Char) :=
  let sp := (line.takeWhile (fun ch => ch = ' ')).length
  if sp ≤ 3 then
    let l := line.drop sp
    let key := l.takeWhile isMetaKeyChar
    if key ≠ [] ∧ (l.drop key.length).head? = some ':' then
      some (key, l.drop (key.length + 1))
    else none
  else none

/-- Match of the meta extension's `META_MORE_RE` (`^[ ]{4,}(?P<value>.*)`),
a continuation line for the previous key. -/
def matchMetaMore (line : List Char) : Option (List Char) :=
  if 4 ≤ (line.takeWhile (fun ch => ch = ' ')).length then some (pyStrip line)
  else none

/-- Append a value under a key, accumulating repeated keys into the value
list as the meta extension does. -/
def metaInsert : MetaMap → List Char → List Char → MetaMap
  | [], key, v => [(key, [v])]
  | kv :: rest, key, v =>
    if kv.1 = key then (kv.1, kv.2 ++ [v]) :: rest else kv :: metaInsert rest key v

/-- Lookup of a key's value list. -/
def metaLookup (key : List Char) : MetaMap → Option (List (List Char))
  | [] => none
  | kv :: rest => if kv.1 = key then some kv.2 else metaLookup key rest

/-- The meta extension's preprocessor loop: consume leading lines until a
blank line or a non-matching line; `key: value` lines insert the lowercased
key with the stripped value; deeply indented lines continue the previous
key. -/
def parseMetaLines : MetaMap → Option (List Char) → List (List Char) → MetaMap
  | m, _, [] => m
  | m, lastKey, line :: rest =>
    if pyStrip line = [] then m
    else
      match matchMetaLine line with
      | some kv =>
        parseMetaLines (metaInsert m (kv.1.map Char.toLower) (pyStrip kv.2))
          (some (kv.1.map Char.toLower)) rest
      | none =>
        match matchMetaMore line, lastKey with
        | some v, some k => parseMetaLines (metaInsert m k v) lastKey rest
        | _, _ => m

/-- The metadata mapping `Processors.out` produces for a raw file text. -/
def parseMeta (content : List Char) : MetaMap :=
  parseMetaLines [] none (splitAll '\n' content)

/-- The body `Processors.out` extracts: `content.split('\n\n', 1)[1]`.
`none` models the `IndexError` raised when no blank-line sequence occurs. -/
def decodeBody (content : List Char) : Option (List Char) :=
  (splitOnce (lc "\n\n") content).map fun p => p.2

/-- `Page.__getitem__` unwraps a single-element metadata value list to the
value.  A multi-valued key returns the list object itself in Python (a type
the `title`/`tags` accessors pass through unchanged); that case is modelled
as `none` and is unused by the claims. -/
def pageGetSingle (key : List Char) (m : MetaMap) : Option (List Char) :=
  match metaLookup key m with
  | some [v] => some v
  | _ => none

/-- `Page.title`: the `title` metadata value, falling back to the page url
on `KeyError`. -/
def pageTitle (url : List Char) (m : MetaMap) : List Char :=
  (pageGetSingle (lc "title") m).getD url

/-- `Page.tags`: the `tags` metadata value, falling back to the empty
string on `KeyError`. -/
def pageTags (m : MetaMap) : List Char :=
  (pageGetSingle (lc "tags") m).getD []

/-! ### Search: `Wiki.search` and `WikiGit.search` -/

/-- A loaded page as `Wiki.search` consumes it: the `title`, `tags` and
`body` attribute values of a rendered `Page`. -/
structure PageData where
  url : List Char
  title : List Char
  tags : List Char
  body : List Char
deriving DecidableEq

/-- `re.compile(term, re.IGNORECASE if ignore_case else 0).search(text)`
for a metacharacter-free (literal) pattern: substring match, case-folded
when `ignore_case` is set. -/
def reSearchLit (term : List Char) (ignoreCase : Bool) (text : List Char) : Bool :=
  if ignoreCase then containsSub (term.map Char.toLower) (text.map Char.toLower)
  else containsSub term text

/-- `Wiki.search(term, ignore_case)`: keep every page whose `title`, `tags`
or `body` matches the pattern (the source appends a page once and breaks at
the first matching attribute, which keeps exactly these pages in order). -/
def wiki_search (pages : List PageData) (term : List Char) (ignoreCase : Bool) :
    List PageData :=
  pages.filter fun p =>
    reSearchLit term ignoreCase p.title || reSearchLit term ignoreCase p.tags ||
      reSearchLit term ignoreCase p.body

/-- The url `WikiGit.search` extracts from one grep output line:
`r.split(':')[0][:-3]` (file name field minus the `.md` suffix). -/
def grepHitUrl (r : List Char) : List Char :=
  let fileField := r.takeWhile fun ch => ch ≠ ':'
  fileField.take (fileField.length - 3)

/-- `WikiGit.search(term, ignore_case)`: on a successful
`git grep` (`grepResult = some lines`) build a page per hit line; on
`git.exc.GitCommandError` (`grepResult = none`) fall back to
`super().search(term)` — the inherited linear search called without the
`ignore_case` argument, hence with its default `True`.  Page construction
for hit lines is modelled as lookup among the loaded pages. -/
def wikigit_search (pages : List PageData) (term : List Char) (ignoreCase : Bool)
    (grepResult : Option (List (List Char))) : List PageData :=
  match grepResult with
  | none => wiki_search pages term true
  | some lines => lines.filterMap fun r => pages.find? fun p => p.url == grepHitUrl r

/-! ### The versioned backend `WikiGit` (`wiki/wikigit.py`) -/

/-- Modelled from the spec: the `named_locks.interprocess_lock('git-lock')`
decorator — module `wiki/named_locks.py`, which is not among the sources
(only its call sites in `wiki/wikigit.py` are) — acquires the named
interprocess lock before the wrapped operation and releases it
unconditionally afterward, including on failure: when the wrapped body
stops after `completed` of its events, the release still happens. -/
def lockedRun (bodyEvents : List FsEvent) (completed : Nat) : List FsEvent :=
  .lockAcquire :: bodyEvents.take completed ++ [.lockRelease]

/-- The author identity `WikiGit.save` synthesizes:
`author <author>`, defaulting to `anonymouse`. -/
def wikigit_author (author : Option (List Char)) : List Char :=
  let a := author.getD (lc "anonymouse")
  a ++ lc " <" ++ a ++ lc ">"

/-- The body of `WikiGit.save` under the lock: the inherited plain save,
then `git add` on the file and `git commit`. -/
def wikigit_save_body (root url body : List Char) (meta : List (List Char × PyVal))
    (author : Option (List Char)) (folderExists : Bool) : List FsEvent :=
  wiki_save_events root url body meta folderExists ++
    [.gitAdd (url ++ lc ".md"), .gitCommit (lc "changed") (wikigit_author author)]

/-- `WikiGit.save` as its event trace: the locked run of the full body. -/
def wikigit_save_events (root url body : List Char) (meta : List (List Char × PyVal))
    (author : Option (List Char)) (folderExists : Bool) : List FsEvent :=
  lockedRun (wikigit_save_body root url body meta author folderExists)
    (wikigit_save_body root url body meta author folderExists).length

/-- Whether an event is a lock transition. -/
def isLockEvent : FsEvent → Bool
  | .lockAcquire => true
  | .lockRelease => true
  | _ => false

/-- No event in the list is a lock transition. -/
def noLockB (events : List FsEvent) : Bool := events.all fun e => !isLockEvent e

/-- An interleaving of two event sequences preserving each one's order;
events are tagged with the issuing lock holder. -/
inductive Interleave : List α → List α → List α → Prop where
  | nil : Interleave [] [] []
  | left {x : α} {xs ys zs : List α} : Interleave xs ys zs → Interleave (x :: xs) ys (x :: zs)
  | right {y : α} {xs ys zs : List α} : Interleave xs ys zs → Interleave xs (y :: ys) (y :: zs)

/-- The mutual-exclusion discipline of the interprocess lock: an acquire
requires the lock to be free, a release only by its holder. -/
def lockSteps : Option Bool → List (Bool × FsEvent) → Bool
  | none, (tid, .lockAcquire) :: rest => lockSteps (some tid) rest
  | some _, (_, .lockAcquire) :: _ => false
  | some holder, (tid, .lockRelease) :: rest => holder == tid && lockSteps none rest
  | none, (_, .lockRelease) :: _ => false
  | holder, _ :: rest => lockSteps holder rest
  | _, [] => true

/-! ### History: `WikiGit.history` and the commit-record parser -/

/-- A parsed commit record (`WikiGit.Commit` without the display-only
fields): hash, `int`-converted `%at` timestamp, author. -/
structure Commit where
  hash : List Char
  timestamp : Nat
  author : List Char
deriving DecidableEq

/-- `int(s)` on a plain decimal-digit string (the form `%at` produces);
`none` models the `ValueError`/`IndexError` on anything else. -/
def parseDigits (s : List Char) : Option Nat :=
  if s ≠ [] ∧ s.all (fun ch => ch.isDigit) then
    some (s.foldl (fun acc ch => acc * 10 + (ch.toNat - 48)) 0)
  else none

/-- Option-valued traversal of a list; `none` when any element fails,
modelling an exception escaping a list comprehension. -/
def optMapM (f : α → Option β) : List α → Option (List β)
  | [] => some []
  | x :: xs =>
    match f x, optMapM f xs with
    | some y, some ys => some (y :: ys)
    | _, _ => none

/-- `Commit.from_gitlog`: split one record on the NUL field delimiter of
the `%h%x00%at%x00%an` format and take the first three fields; fewer than
three fields raises `IndexError` (`none`). -/
def from_gitlog (record : List Char) : Option Commit :=
  match splitAll '\x00' record with
  | h :: ts :: a :: _ => (parseDigits ts).map fun n => ⟨h, n, a⟩
  | _ => none

/-- `WikiGit.history(url, offset, limit)`: split the `git log` output into
lines, parse every record, then take the Python slice `[offset:limit]`.
Any record that fails to parse propagates as an exception (`none`). -/
def history (logOutput : List Char) (offset limit : Nat) : Option (List Commit) :=
  (optMapM from_gitlog (splitAll '\n' logOutput)).map fun commits =>
    (commits.drop offset).take (limit - offset)

/-- A raw log record as `git log` emits it: hash, timestamp digits and
author as text fields. -/
structure GitLogRec where
  hash : List Char
  ts : List Char
  author : List Char
deriving DecidableEq

/-- The line `git log` emits for one record under the
`%h%x00%at%x00%an` format. -/
def formatGitRec (r : GitLogRec) : List Char :=
  r.hash ++ '\x00' :: r.ts ++ '\x00' :: r.author

/-- A field free of the NUL delimiter and of newlines. -/
def goodGitField (s : List Char) : Bool :=
  s.all fun ch => ch ≠ '\x00' && ch ≠ '\n'

/-- Well-formedness of a raw record: clean hash and author fields and a
non-empty all-digit timestamp. -/
def goodGitRec (r : GitLogRec) : Bool :=
  goodGitField r.hash && goodGitField r.author &&
    !r.ts.isEmpty && r.ts.all (fun ch => ch.isDigit)

/-- The parsed commit a well-formed raw record denotes. -/
def commitOf (r : GitLogRec) : Commit :=
  ⟨r.hash, r.ts.foldl (fun acc ch => acc * 10 + (ch.toNat - 48)) 0, r.author⟩

/-- The full `git log` output for a sequence of records, newline-joined. -/
def gitLogText : List GitLogRec → List Char
  | [] => []
  | [r] => formatGitRec r
  | r :: rest => formatGitRec r ++ '\n' :: gitLogText rest

/-! ### The user account store (`app.py`) -/

/-- A stored account record: the fields `UserManager.add_user` persists,
with the credential fields optional as `User.get` reads them through
`dict.get`.  All values are byte strings. -/
structure UserData where
  active : Bool
  roles : List (List Nat)
  authentication_method : Option (List Nat)
  password : Option (List Nat)
  hash : Option (List Nat)
deriving DecidableEq

/-- The `NotImplementedError(authentication_method)` that
`User.check_password` raises on a method tag it does not know. -/
inductive AuthMethodErr where
  | notImplemented (method : List Nat)
deriving DecidableEq

/-- `User.check_password(password)`: a missing method tag falls back to the
configured default; `hash` recomputes the salted hash against the stored
credential (always present on a hash record, read with `getD []`);
`cleartext` compares `self.get('password') == password` (a missing field
compares unequal); any other tag raises. -/
def check_password (defaultMethod : List Nat) (u : UserData) (candidate : List Nat) :
    Except AuthMethodErr Bool :=
  let m := u.authentication_method.getD defaultMethod
  if m = lcB "hash" then .ok (check_hashed_password candidate (u.hash.getD []))
  else if m = lcB "cleartext" then .ok (u.password == some candidate)
  else .error (.notImplemented m)

/-- The account table file content: a JSON object, name to record,
insertion ordered. -/
abbrev UserTable : Type := List (List Nat × UserData)

/-- Lookup of an account by name (`dict.get`). -/
def userLookup (name : List Nat) : UserTable → Option UserData
  | [] => none
  | kv :: rest => if kv.1 = name then some kv.2 else userLookup name rest

/-- `UserManager.delete_user(name)` under the account lock: read the table,
`users.pop(name, False)` — which removes and returns the stored record, a
non-empty JSON object and hence truthy for every account — then rewrite the
table only when the name was present.  The result pairs the returned flag
with the table file's resulting content. -/
def delete_user (name : List Nat) (users : UserTable) : Bool × UserTable :=
  match userLookup name users with
  | none => (false, users)
  | some _ => (true, users.filter fun kv => kv.1 != name)

/-! ### Concrete sample inputs used by counterexamples and witnesses -/

/-- Whether an event is a rename. -/
def isRenameEv : FsEvent → Bool
  | .rename _ _ => true
  | _ => false

/-- A store with one page whose body is `x` (title falls back to the url). -/
def samplePages : List PageData := [⟨lc "p", lc "p", [], lc "x"⟩]

/-- A sample account record. -/
def sampleUser : UserData := ⟨true, [], some (lcB "cleartext"), some (lcB "pw"), none⟩

/-- A sample two-account table. -/
def sampleUsers : UserTable := [(lcB "alice", sampleUser), (lcB "bob", sampleUser)]

/-- The 64-byte salt used to instantiate the password scenario (the source
draws it from `os.urandom(64)`). -/
def aliceSalt : List Nat := List.range 64

/-- The credential stored for account `alice` created with method `hash`
and password `s3cr3t`. -/
def aliceStored : List Nat := make_salted_hash (lcB "s3cr3t") aliceSalt

/-! ### Helper lemmas -/

theorem splitAll_ne_nil (sep : Char) (s : List Char) : splitAll sep s ≠ [] := by
  cases s with
  | nil => simp [splitAll]
  | cons ch rest =>
    simp only [splitAll]
    rcases h : splitAll sep rest with _ | ⟨cur, parts⟩
    · simp
    · by_cases hc : ch = sep <;> simp [hc]

theorem splitAll_sep_cons (sep : Char) (rest : List Char) :
    splitAll sep (sep :: rest) = [] :: splitAll sep rest := by
  rcases h : splitAll sep rest with _ | ⟨cur, parts⟩
  · exact absurd h (splitAll_ne_nil sep rest)
  · simp [splitAll, h]

theorem splitAll_cons_of_ne (sep ch : Char) (s cur : List Char) (parts : List (List Char))
    (h : ch ≠ sep) (hs : splitAll sep s = cur :: parts) :
    splitAll sep (ch :: s) = (ch :: cur) :: parts := by
  simp [splitAll, hs, h]

theorem splitAll_append_sep (sep : Char) (a rest : List Char)
    (ha : ∀ ch ∈ a, ch ≠ sep) :
    splitAll sep (a ++ sep :: rest) = a :: splitAll sep rest := by
  induction a with
  | nil => exact splitAll_sep_cons sep rest
  | cons ch a ih =>
    have h1 : ∀ c ∈ a, c ≠ sep := fun c hc => ha c (List.mem_cons_of_mem _ hc)
    exact splitAll_cons_of_ne sep ch _ a (splitAll sep rest)
      (ha ch (List.mem_cons_self _ _)) (ih h1)

theorem splitAll_no_sep (sep : Char) (s : List Char) (h : ∀ ch ∈ s, ch ≠ sep) :
    splitAll sep s = [s] := by
  induction s with
  | nil => rfl
  | cons ch s ih =>
    exact splitAll_cons_of_ne sep ch s s []
      (h ch (List.mem_cons_self _ _)) (ih fun c hc => h c (List.mem_cons_of_mem _ hc))

theorem splitOnce_eq_none (sep s : List Char) (h : containsSub sep s = false) :
    splitOnce sep s = none := by
  induction s with
  | nil => rfl
  | cons ch rest ih =>
    rw [containsSub, Bool.or_eq_false_iff] at h
    rw [splitOnce, if_neg (by simp [h.1]), ih h.2]
    rfl

theorem userLookup_filter_self (name : List Nat) (users : UserTable) :
    userLookup name (users.filter fun kv => kv.1 != name) = none := by
  induction users with
  | nil => rfl
  | cons kv rest ih =>
    rw [List.filter_cons]
    by_cases h : kv.1 = name
    · simp [h, ih]
    · simp [h, userLookup, ih]

theorem userLookup_filter_other (k name : List Nat) (users : UserTable) (h : k ≠ name) :
    userLookup k (users.filter fun kv => kv.1 != name) = userLookup k users := by
  induction users with
  | nil => rfl
  | cons kv rest ih =>
    rw [List.filter_cons]
    by_cases hk : kv.1 = k
    · have hn : kv.1 ≠ name := by rw [hk]; exact h
      simp [hn, userLookup, hk, h]
    · by_cases hn : kv.1 = name
      · simp [hn, userLookup, hk, Ne.symm h, ih]
      · simp [hn, userLookup, hk, ih]

/-! ### Claim theorems -/

/-- Claim C6: for every account record whose authentication method tag is
present and is neither `cleartext` nor `hash`, `check_password` fails with
the unknown-method error (`NotImplementedError` in the source) for every
candidate and every configured default; the tag is not defaulted. -/
theorem check_password_unknown_method_fatal :
    ∀ (defaultMethod : List Nat) (u : UserData) (candidate m : List Nat),
      u.authentication_method = some m → m ≠ lcB "hash" → m ≠ lcB "cleartext" →
      check_password defaultMethod u candidate = .error (.notImplemented m) := by
  intro dm u pw m hm h1 h2
  simp only [check_password, hm, Option.getD_some]
  rw [if_neg h1, if_neg h2]

/-- Witness for C6: a record with method tag `md5` is rejected. -/
theorem check_password_unknown_method_fatal_witness :
    check_password (lcB "cleartext") ⟨true, [], some (lcB "md5"), none, none⟩ (lcB "x") =
      .error (.notImplemented (lcB "md5")) :=
  check_password_unknown_method_fatal (lcB "cleartext") _ (lcB "x") (lcB "md5") rfl
    (by decide) (by decide)

/-- Claim C10: `delete_user` on an absent name returns `False` and leaves
the account table unchanged; on a present name it returns `True`, the name
is gone from the rewritten table, and every other name maps to exactly its
previous record. -/
theorem delete_user_frame :
    ∀ (users : UserTable) (name : List Nat),
      (userLookup name users = none → delete_user name users = (false, users)) ∧
      (∀ r, userLookup name users = some r →
        (delete_user name users).1 = true ∧
        userLookup name (delete_user name users).2 = none ∧
        ∀ k, k ≠ name → userLookup k (delete_user name users).2 = userLookup k users) := by
  intro users name
  constructor
  · intro h
    simp [delete_user, h]
  · intro r hr
    refine ⟨by simp [delete_user, hr], ?_, ?_⟩
    · simp only [delete_user, hr]
      exact userLookup_filter_self name users
    · intro k hk
      simp only [delete_user, hr]
      exact userLookup_filter_other k name users hk

/-- Witness for C10: deleting absent `carol` from the sample table is a
no-op returning `False`; deleting present `alice` returns `True`. -/
theorem delete_user_frame_witness :
    delete_user (lcB "carol") sampleUsers = (false, sampleUsers) ∧
    (delete_user (lcB "alice") sampleUsers).1 = true :=
  ⟨(delete_user_frame sampleUsers (lcB "carol")).1 (by decide),
   ((delete_user_frame sampleUsers (lcB "alice")).2 sampleUser (by decide)).1⟩

/-- Claim C7 counterexample: with one page whose body is `x`, the term `X`
and `ignoreCase = false`, a failed grep makes `WikiGit.search` return the
page (the fallback call drops the flag and searches case-insensitively),
while `Wiki.search` with that term and flag returns nothing — so the
fallback does not return what `search` would return for that term and
flag. -/
theorem wikigit_search_flag_counterexample :
    wikigit_search samplePages (lc "X") false none = samplePages ∧
    wiki_search samplePages (lc "X") false = [] ∧
    wikigit_search samplePages (lc "X") false none ≠ wiki_search samplePages (lc "X") false := by
  refine ⟨by decide, by decide, by decide⟩

/-- Claim C7 (amended): when the version-control grep fails, the versioned
backend's search falls back to the plain linear search called with the
default `ignore_case = True` — the caller's flag is not forwarded — and the
result contains exactly the pages where the case-insensitive pattern
matches at least one of title, tags, body. -/
theorem wikigit_search_fallback :
    ∀ (pages : List PageData) (term : List Char) (ignoreCase : Bool),
      wikigit_search pages term ignoreCase none = wiki_search pages term true ∧
      ∀ p, p ∈ wikigit_search pages term ignoreCase none ↔
        p ∈ pages ∧ (reSearchLit term true p.title = true ∨
          reSearchLit term true p.tags = true ∨ reSearchLit term true p.body = true) := by
  intro pages term ic
  refine ⟨rfl, ?_⟩
  intro p
  show p ∈ wiki_search pages term true ↔ _
  simp [wiki_search, List.mem_filter, Bool.or_eq_true, and_assoc, or_assoc]

/-- Claim C9 counterexample: a record with no metadata keys is encoded as a
single newline followed by the body, the decoder finds no `\n\n` blank-line
sequence in it, and the body split fails (`IndexError`) instead of
returning empty metadata and the body. -/
theorem empty_meta_decode_counterexample :
    pageFileContent [] (lc "Hello") = lc "\nHello" ∧
    decodeBody (pageFileContent [] (lc "Hello")) = none ∧
    parseMeta (pageFileContent [] (lc "Hello")) = [] := by
  refine ⟨by decide, by decide, by decide⟩

/-- Claim C9 (amended): `Wiki.save` on a record with no metadata writes a
single `'\n'` before the body, and whenever the resulting text contains no
`\n\n` sequence, `Processors.out`'s body split raises (`none`) rather than
yielding the body. -/
theorem empty_meta_record_encoding :
    ∀ body : List Char,
      pageFileContent [] body = '\n' :: pyReplaceCRLF body ∧
      (containsSub (lc "\n\n") ('\n' :: pyReplaceCRLF body) = false →
        decodeBody (pageFileContent [] body) = none) := by
  intro body
  refine ⟨rfl, ?_⟩
  intro h
  unfold decodeBody
  rw [show pageFileContent [] body = '\n' :: pyReplaceCRLF body from rfl,
    splitOnce_eq_none _ _ h]
  rfl

/-- Witness for C9 (amended), at body `Hello`. -/
theorem empty_meta_record_encoding_witness :
    containsSub (lc "\n\n") ('\n' :: pyReplaceCRLF (lc "Hello")) = false ∧
    decodeBody (pageFileContent [] (lc "Hello")) = none :=
  ⟨by decide, (empty_meta_record_encoding (lc "Hello")).2 (by decide)⟩

/-- Claim C3: the round-trip fails on the code for list-valued metadata.
Saving page `notes/today` with metadata mapping `title` to the list
`['Today']` writes the Python `repr` of the list into the header line, so
reloading yields title `['Today']` (a ten-character string), not `Today`;
the body and the empty `tags` fallback round-trip as the scenario states. -/
theorem save_reload_list_metadata_corrupts :
    pageFileContent [(lc "title", .list [lc "Today"])] (lc "Hello") =
        lc "title: ['Today']\n\nHello" ∧
    decodeBody (lc "title: ['Today']\n\nHello") = some (lc "Hello") ∧
    pageTitle (lc "notes/today") (parseMeta (lc "title: ['Today']\n\nHello")) =
        lc "['Today']" ∧
    pageTags (parseMeta (lc "title: ['Today']\n\nHello")) = [] ∧
    lc "['Today']" ≠ lc "Today" := by
  refine ⟨by decide, by decide, by decide, by decide, by decide⟩

/-- Claim C8 counterexample: on a file with no history `git log` outputs
the empty string, and `history` raises (`IndexError` inside
`Commit.from_gitlog` on the single empty record) instead of returning the
empty sequence. -/
theorem history_empty_log_counterexample :
    history [] 0 5 = none ∧ history [] 0 5 ≠ some [] :=
  ⟨rfl, by decide⟩

theorem digit_ne_nul {ch : Char} (h : ch.isDigit = true) : ch ≠ '\x00' := by
  intro heq
  rw [heq] at h
  exact absurd h (by decide)

theorem digit_ne_nl {ch : Char} (h : ch.isDigit = true) : ch ≠ '\n' := by
  intro heq
  rw [heq] at h
  exact absurd h (by decide)

theorem goodGitField_no_nul (s : List Char) (h : goodGitField s = true) :
    ∀ ch ∈ s, ch ≠ '\x00' := by
  intro ch hch
  have := List.all_eq_true.mp h ch hch
  simp only [Bool.and_eq_true, decide_eq_true_eq] at this
  exact this.1

theorem goodGitField_no_nl (s : List Char) (h : goodGitField s = true) :
    ∀ ch ∈ s, ch ≠ '\n' := by
  intro ch hch
  have := List.all_eq_true.mp h ch hch
  simp only [Bool.and_eq_true, decide_eq_true_eq] at this
  exact this.2

theorem formatGitRec_no_nl (r : GitLogRec) (h : goodGitRec r = true) :
    ∀ ch ∈ formatGitRec r, ch ≠ '\n' := by
  rw [goodGitRec, Bool.and_eq_true, Bool.and_eq_true, Bool.and_eq_true] at h
  obtain ⟨⟨⟨hh, ha⟩, _⟩, hdig⟩ := h
  intro ch hch
  rw [formatGitRec] at hch
  simp only [List.mem_append, List.mem_cons] at hch
  rcases hch with (hch | (rfl | hch)) | (rfl | hch)
  · exact goodGitField_no_nl _ hh ch hch
  · decide
  · exact digit_ne_nl (List.all_eq_true.mp hdig ch hch)
  · decide
  · exact goodGitField_no_nl _ ha ch hch

theorem from_gitlog_format (r : GitLogRec) (h : goodGitRec r = true) :
    from_gitlog (formatGitRec r) = some (commitOf r) := by
  rw [goodGitRec, Bool.and_eq_true, Bool.and_eq_true, Bool.and_eq_true] at h
  obtain ⟨⟨⟨hh, ha⟩, hne⟩, hdig⟩ := h
  have hts : ∀ ch ∈ r.ts, ch ≠ '\x00' :=
    fun ch hc => digit_ne_nul (List.all_eq_true.mp hdig ch hc)
  rw [from_gitlog, formatGitRec, List.append_assoc, List.cons_append]
  rw [splitAll_append_sep '\x00' r.hash _ (goodGitField_no_nul _ hh)]
  rw [splitAll_append_sep '\x00' r.ts _ hts]
  rw [splitAll_no_sep '\x00' r.author (goodGitField_no_nul _ ha)]
  have hne' : r.ts ≠ [] := by
    intro he
    rw [he] at hne
    exact absurd hne (by decide)
  simp only [parseDigits]
  rw [if_pos ⟨hne', hdig⟩]
  rfl

theorem optMapM_gitlog (recs : List GitLogRec) (h : recs.all goodGitRec = true)
    (hne : recs ≠ []) :
    optMapM from_gitlog (splitAll '\n' (gitLogText recs)) = some (recs.map commitOf) := by
  induction recs with
  | nil => exact absurd rfl hne
  | cons r rest ih =>
    rw [List.all_cons, Bool.and_eq_true] at h
    cases rest with
    | nil =>
      rw [show gitLogText [r] = formatGitRec r from rfl]
      rw [splitAll_no_sep '\n' (formatGitRec r) (formatGitRec_no_nl r h.1)]
      simp [optMapM, from_gitlog_format r h.1, commitOf]
    | cons r2 rest2 =>
      rw [show gitLogText (r :: r2 :: rest2) =
        formatGitRec r ++ '\n' :: gitLogText (r2 :: rest2) from rfl]
      rw [splitAll_append_sep '\n' _ _ (formatGitRec_no_nl r h.1)]
      have ihr := ih h.2 (by simp)
      simp [optMapM, from_gitlog_format r h.1, ihr]

/-- Claim C8 (amended): for well-formed log output — one NUL-delimited
`hash, timestamp, author` record per line — `history` parses every record
and returns the Python slice `[offset:limit]` of the parsed sequence; but
on empty log output (a file with no history) record parsing raises instead
of producing the empty sequence. -/
theorem history_bounded_slice :
    (∀ (recs : List GitLogRec) (offset limit : Nat),
        recs ≠ [] → recs.all goodGitRec = true →
        history (gitLogText recs) offset limit =
          some (((recs.map commitOf).drop offset).take (limit - offset))) ∧
    history [] 0 5 = none := by
  refine ⟨?_, rfl⟩
  intro recs off lim hne hgood
  rw [history, optMapM_gitlog recs hgood hne]
  rfl

/-- Witness for C8 (amended), at a one-record log. -/
theorem history_bounded_slice_witness :
    ([⟨lc "ab", lc "5", lc "me"⟩] : List GitLogRec) ≠ [] ∧
    history (gitLogText [⟨lc "ab", lc "5", lc "me"⟩]) 0 5 = some [⟨lc "ab", 5, lc "me"⟩] :=
  ⟨by decide, by
    rw [history_bounded_slice.1 [⟨lc "ab", lc "5", lc "me"⟩] 0 5 (by decide) (by decide)]
    rfl⟩

theorem applyEvents_append_ev (es1 es2 : List FsEvent) (σ : Store) :
    applyEvents (es1 ++ es2) σ = applyEvents es2 (applyEvents es1 σ) :=
  List.foldl_append applyEvent σ es1 es2

theorem applyEvent_write_at (σ : Store) (p d cur : List Char) (h : σ p = some cur) :
    applyEvent σ (.fileWrite p d) p = some (cur ++ d) := by
  simp [applyEvent, h]

theorem applyEvents_writes (p : List Char) (chunks : List (List Char)) (σ : Store)
    (init : List Char) (h : σ p = some init) :
    applyEvents (chunks.map (FsEvent.fileWrite p)) σ p = some (init ++ chunks.flatten) := by
  induction chunks generalizing σ init with
  | nil => simpa [applyEvents] using h
  | cons c cs ih =>
    rw [List.map_cons]
    show applyEvents _ (applyEvent σ (.fileWrite p c)) p = _
    rw [ih _ (init ++ c) (by simp [applyEvent, h])]
    simp [List.append_assoc]

theorem wiki_save_content (root url body : List Char) (meta : List (List Char × PyVal))
    (fe : Bool) (σ : Store) :
    applyEvents (wiki_save_events root url body meta fe) σ (wikiPath root url) =
      some (pageFileContent meta body) := by
  have key : ∀ σ2 : Store, applyEvents
      (FsEvent.openTrunc (wikiPath root url) ::
        (pageLines meta).map (FsEvent.fileWrite (wikiPath root url)) ++
        [FsEvent.fileWrite (wikiPath root url) ['\n'],
         FsEvent.fileWrite (wikiPath root url) (pyReplaceCRLF body)]) σ2 (wikiPath root url) =
      some (pageFileContent meta body) := by
    intro σ2
    show applyEvents
      ((pageLines meta).map (FsEvent.fileWrite (wikiPath root url)) ++
        [FsEvent.fileWrite (wikiPath root url) ['\n'],
         FsEvent.fileWrite (wikiPath root url) (pyReplaceCRLF body)])
      (applyEvent σ2 (.openTrunc (wikiPath root url))) (wikiPath root url) = _
    rw [applyEvents_append_ev]
    have h1 : applyEvents ((pageLines meta).map (FsEvent.fileWrite (wikiPath root url)))
        (applyEvent σ2 (.openTrunc (wikiPath root url))) (wikiPath root url) =
        some (pageLines meta).flatten := by
      rw [applyEvents_writes _ _ _ [] (by simp [applyEvent])]
      simp
    have h2 := applyEvent_write_at _ (wikiPath root url) ['\n'] _ h1
    have h3 := applyEvent_write_at _ (wikiPath root url) (pyReplaceCRLF body) _ h2
    simp only [applyEvents, List.foldl_cons, List.foldl_nil] at h3 ⊢
    rw [h3, pageFileContent]
    simp
  cases fe with
  | false =>
    have hsplit : wiki_save_events root url body meta false =
        [FsEvent.makedirs (pyDirname (wikiPath root url))] ++
          (FsEvent.openTrunc (wikiPath root url) ::
            (pageLines meta).map (FsEvent.fileWrite (wikiPath root url)) ++
            [FsEvent.fileWrite (wikiPath root url) ['\n'],
             FsEvent.fileWrite (wikiPath root url) (pyReplaceCRLF body)]) := rfl
    rw [hsplit, applyEvents_append_ev]
    exact key _
  | true => exact key σ

/-- Claim C1 counterexample: `Wiki.save` performs no rename at all — its
very first effect truncates the target file in place, so one step into the
save the previously persisted content `old` is gone, and two steps in a
reader observes the partially written text `"\n"`, not the old or the new
record. -/
theorem save_not_atomic_counterexample :
    (wiki_save_events (lc "content") (lc "a") (lc "Hello") [] true).all
        (fun e => !isRenameEv e) = true ∧
    applyEvents ((wiki_save_events (lc "content") (lc "a") (lc "Hello") [] true).take 1)
        (fun p => if p = lc "content/a.md" then some (lc "old") else none)
        (lc "content/a.md") = some [] ∧
    some ([] : List Char) ≠ some (lc "old") ∧
    applyEvents ((wiki_save_events (lc "content") (lc "a") (lc "Hello") [] true).take 2)
        (fun p => if p = lc "content/a.md" then some (lc "old") else none)
        (lc "content/a.md") = some (lc "\n") ∧
    some (lc "\n") ≠ some (pageFileContent [] (lc "Hello")) := by
  refine ⟨by decide, by decide, by decide, by decide, by decide⟩

/-- Claim C1 (amended): the atomic-replace discipline is implemented by the
account store's `UserManager.write` — every effect before its final rename
leaves the target file untouched and the rename installs the complete new
content — whereas the plain backend's `Wiki.save` writes the page file in
place: its first effect truncates the target, so a failed save does not
preserve the previous content and a concurrent reader can observe partial
content. -/
theorem user_write_atomic_wiki_save_not :
    (∀ (file data : List Char) (σ : Store) (k : Nat),
        k < (user_write_events file data).length →
        applyEvents ((user_write_events file data).take k) σ file = σ file) ∧
    (∀ (file data : List Char) (σ : Store),
        applyEvents (user_write_events file data) σ file = some data) ∧
    (∀ (root url body : List Char) (meta : List (List Char × PyVal)) (σ : Store),
        applyEvents ((wiki_save_events root url body meta true).take 1) σ
          (wikiPath root url) = some []) := by
  have hne : ∀ file : List Char, ¬ (file = file ++ lc "-write") := by
    intro file h
    have := congrArg List.length h
    simp [lc] at this
  refine ⟨?_, ?_, ?_⟩
  · intro file data σ k hk
    have h4 : (user_write_events file data).length = 4 := rfl
    rw [h4] at hk
    interval_cases k
    · rfl
    · simp [user_write_events, applyEvents, applyEvent, hne file]
    · simp [user_write_events, applyEvents, applyEvent, hne file]
    · simp [user_write_events, applyEvents, applyEvent, hne file]
  · intro file data σ
    simp [user_write_events, applyEvents, applyEvent, hne file]
  · intro root url body meta σ
    have h1 : (wiki_save_events root url body meta true).take 1 =
        [FsEvent.openTrunc (wikiPath root url)] := rfl
    rw [h1]
    simp [applyEvents, applyEvent]

/-- Witness for C1 (amended): two steps into `UserManager.write` the table
file still holds its old content. -/
theorem user_write_atomic_wiki_save_not_witness :
    2 < (user_write_events (lc "users.json") (lc "NEW")).length ∧
    applyEvents ((user_write_events (lc "users.json") (lc "NEW")).take 2)
        (fun p => if p = lc "users.json" then some (lc "OLD") else none) (lc "users.json") =
      (fun p => if p = lc "users.json" then some (lc "OLD") else none) (lc "users.json") :=
  ⟨by decide,
   user_write_atomic_wiki_save_not.1 (lc "users.json") (lc "NEW") _ 2 (by decide)⟩

/-- Claim C2 counterexample: `Wiki.save` performs no confinement check —
saving identifier `../evil` under root `content` writes the full record at
`content/../evil.md`, which normalizes outside the root, and raises
nothing; and `Wiki.move` to destination `a/../b`, an identifier containing
a `../` segment whose normalized target stays inside the root, succeeds
instead of failing with the path-escape error. -/
theorem save_escape_counterexample :
    applyEvents (wiki_save_events (lc "content") (lc "../evil") (lc "x") [] true)
        (fun _ => none) (lc "content/../evil.md") = some (lc "\nx") ∧
    (commonPfx (normpath (lc "content")) (normpath (lc "content/../evil.md"))).length <
      (normpath (lc "content")).length ∧
    wiki_move (lc "content") (lc "x") (lc "a/../b") true =
      .ok [.rename (lc "content/x.md") (lc "content/a/../b.md")] := by
  refine ⟨by decide, by decide, by rfl⟩

/-- Claim C2 (amended): `Wiki.move` fails with the path-escape error — and
performs no filesystem effect — exactly when the normalized destination
path's common string prefix with the normalized root is shorter than the
normalized root; `Wiki.save` performs no confinement check at all: for
every identifier it unconditionally writes the full encoded record at the
resolved path. -/
theorem move_confinement_check :
    (∀ (root url newurl : List Char) (folderExists : Bool),
        (commonPfx (normpath root) (normpath (pyJoin root newurl ++ lc ".md"))).length <
          (normpath root).length →
        wiki_move root url newurl folderExists = .error (.pathEscape newurl)) ∧
    (∀ (root url body : List Char) (meta : List (List Char × PyVal)) (folderExists : Bool)
        (σ : Store),
        applyEvents (wiki_save_events root url body meta folderExists) σ (wikiPath root url) =
          some (pageFileContent meta body)) := by
  refine ⟨?_, fun root url body meta fe σ => wiki_save_content root url body meta fe σ⟩
  intro root url newurl fe h
  rw [wiki_move]
  rw [if_pos h]

/-- Witness for C2 (amended): moving to `../evil` under root `content`
fails with the path-escape error. -/
theorem move_confinement_check_witness :
    (commonPfx (normpath (lc "content"))
        (normpath (pyJoin (lc "content") (lc "../evil") ++ lc ".md"))).length <
      (normpath (lc "content")).length ∧
    wiki_move (lc "content") (lc "x") (lc "../evil") true =
      .error (.pathEscape (lc "../evil")) :=
  ⟨by decide, move_confinement_check.1 (lc "content") (lc "x") (lc "../evil") true (by decide)⟩

theorem interleave_nil_left {α : Type} {ys zs : List α} (h : Interleave [] ys zs) : zs = ys := by
  induction ys generalizing zs with
  | nil => cases h; rfl
  | cons y ys ih =>
    cases h with
    | right h2 => rw [ih h2]

theorem interleave_nil_self {α : Type} (ys : List α) : Interleave [] ys ys := by
  induction ys with
  | nil => exact .nil
  | cons y ys ih => exact .right ih

theorem interleave_append {α : Type} (xs ys : List α) : Interleave xs ys (xs ++ ys) := by
  induction xs with
  | nil => exact interleave_nil_self ys
  | cons x xs ih => exact .left ih

theorem interleave_comm {α : Type} {xs ys zs : List α} (h : Interleave xs ys zs) :
    Interleave ys xs zs := by
  induction h with
  | nil => exact .nil
  | left h2 ih => exact .right ih
  | right h2 ih => exact .left ih

theorem lockSteps_skip (h : Option Bool) (t : Bool) (a : FsEvent)
    (rest : List (Bool × FsEvent)) (ha : isLockEvent a = false) :
    lockSteps h ((t, a) :: rest) = lockSteps h rest := by
  cases a <;> first
    | exact absurd ha (by decide)
    | (cases h <;> rfl)

theorem locked_section_alone (f : Bool) :
    ∀ (as : List FsEvent) (b : Bool) (B2 zs : List (Bool × FsEvent)),
      noLockB as = true →
      Interleave ((as ++ [FsEvent.lockRelease]).map (fun e => (f, e)))
        ((b, FsEvent.lockAcquire) :: B2) zs →
      lockSteps (some f) zs = true →
      zs = (as ++ [FsEvent.lockRelease]).map (fun e => (f, e)) ++
        (b, FsEvent.lockAcquire) :: B2 := by
  intro as
  induction as with
  | nil =>
    intro b B2 zs hnl hI hL
    cases hI with
    | left hI2 => simp [interleave_nil_left hI2]
    | right hI2 => simp [lockSteps] at hL
  | cons a as ih =>
    intro b B2 zs hnl hI hL
    rw [List.cons_append, List.map_cons] at hI
    rw [noLockB, List.all_cons, Bool.and_eq_true] at hnl
    have ha : isLockEvent a = false := by simpa using hnl.1
    cases hI with
    | left hI2 =>
      rw [lockSteps_skip _ _ _ _ ha] at hL
      rw [ih b B2 _ hnl.2 hI2 hL]
      simp
    | right hI2 => simp [lockSteps] at hL

theorem locked_traces_serialize (as bs : List FsEvent) (zs : List (Bool × FsEvent))
    (ha : noLockB as = true) (hb : noLockB bs = true)
    (hI : Interleave
      ((FsEvent.lockAcquire :: as ++ [FsEvent.lockRelease]).map (fun e => (false, e)))
      ((FsEvent.lockAcquire :: bs ++ [FsEvent.lockRelease]).map (fun e => (true, e))) zs)
    (hL : lockSteps none zs = true) :
    zs = (FsEvent.lockAcquire :: as ++ [FsEvent.lockRelease]).map (fun e => (false, e)) ++
           (FsEvent.lockAcquire :: bs ++ [FsEvent.lockRelease]).map (fun e => (true, e)) ∨
    zs = (FsEvent.lockAcquire :: bs ++ [FsEvent.lockRelease]).map (fun e => (true, e)) ++
           (FsEvent.lockAcquire :: as ++ [FsEvent.lockRelease]).map (fun e => (false, e)) := by
  simp only [List.cons_append, List.map_cons] at hI
  cases hI with
  | left hI2 =>
    left
    have hz := locked_section_alone false as true _ _ ha hI2 hL
    simp [hz]
  | right hI2 =>
    right
    have hz := locked_section_alone true bs false _ _ hb (interleave_comm hI2) hL
    simp [hz]

theorem map_snd_tag (t : Bool) (l : List FsEvent) :
    (l.map fun e => (t, e)).map Prod.snd = l := by
  induction l with
  | nil => rfl
  | cons x xs ih => simp [ih]

theorem noLockB_wiki_save (root url body : List Char) (meta : List (List Char × PyVal))
    (fe : Bool) : noLockB (wiki_save_events root url body meta fe) = true := by
  rw [noLockB, wiki_save_events]
  cases fe <;> simp [List.all_append, List.all_map, isLockEvent, Function.comp]

theorem noLockB_wikigit_body (root url body : List Char) (meta : List (List Char × PyVal))
    (author : Option (List Char)) (fe : Bool) :
    noLockB (wikigit_save_body root url body meta author fe) = true := by
  rw [noLockB, wikigit_save_body, List.all_append, Bool.and_eq_true]
  exact ⟨noLockB_wiki_save root url body meta fe, by simp [isLockEvent]⟩

theorem wikigit_save_content (root url body : List Char) (meta : List (List Char × PyVal))
    (author : Option (List Char)) (fe : Bool) (σ : Store) :
    applyEvents (wikigit_save_events root url body meta author fe) σ (wikiPath root url) =
      some (pageFileContent meta body) := by
  rw [wikigit_save_events, lockedRun, List.take_length]
  show applyEvents (wikigit_save_body root url body meta author fe ++ [FsEvent.lockRelease])
    (applyEvent σ .lockAcquire) (wikiPath root url) = _
  rw [applyEvents_append_ev, wikigit_save_body, applyEvents_append_ev]
  show applyEvents (wiki_save_events root url body meta fe) σ (wikiPath root url) = _
  exact wiki_save_content root url body meta fe σ

/-- Claim C4: every locked operation of the versioned backend acquires the
interprocess lock as its first event and releases it as its last, for every
degree of completion of the wrapped body (so also on failure); and in any
interleaving of two locked saves to the same identifier that respects the
lock's mutual exclusion, the final content of the page file is the complete
encoded record of one of the two saves — never a byte-level mix. -/
theorem wikigit_locked_save_atomic :
    (∀ (bodyEvents : List FsEvent) (completed : Nat),
        (lockedRun bodyEvents completed).head? = some FsEvent.lockAcquire ∧
        (lockedRun bodyEvents completed).getLast? = some FsEvent.lockRelease) ∧
    (∀ (root url b1 b2 : List Char) (m1 m2 : List (List Char × PyVal))
        (a1 a2 : Option (List Char)) (fe1 fe2 : Bool) (σ : Store)
        (zs : List (Bool × FsEvent)),
        Interleave ((wikigit_save_events root url b1 m1 a1 fe1).map (fun e => (false, e)))
          ((wikigit_save_events root url b2 m2 a2 fe2).map (fun e => (true, e))) zs →
        lockSteps none zs = true →
        applyEvents (zs.map Prod.snd) σ (wikiPath root url) = some (pageFileContent m1 b1) ∨
        applyEvents (zs.map Prod.snd) σ (wikiPath root url) = some (pageFileContent m2 b2)) := by
  constructor
  · intro b k
    refine ⟨rfl, ?_⟩
    rw [lockedRun, show FsEvent.lockAcquire :: b.take k ++ [FsEvent.lockRelease] =
      (FsEvent.lockAcquire :: b.take k) ++ [FsEvent.lockRelease] from rfl]
    exact List.getLast?_concat _
  · intro root url b1 b2 m1 m2 a1 a2 fe1 fe2 σ zs hI hL
    rw [wikigit_save_events, wikigit_save_events, lockedRun, lockedRun,
      List.take_length, List.take_length] at hI
    rcases locked_traces_serialize _ _ zs
      (noLockB_wikigit_body root url b1 m1 a1 fe1)
      (noLockB_wikigit_body root url b2 m2 a2 fe2) hI hL with h | h
    · right
      rw [h, List.map_append, map_snd_tag, map_snd_tag, applyEvents_append_ev]
      have hc := wikigit_save_content root url b2 m2 a2 fe2
        (applyEvents (FsEvent.lockAcquire ::
          wikigit_save_body root url b1 m1 a1 fe1 ++ [FsEvent.lockRelease]) σ)
      rw [wikigit_save_events, lockedRun, List.take_length] at hc
      exact hc
    · left
      rw [h, List.map_append, map_snd_tag, map_snd_tag, applyEvents_append_ev]
      have hc := wikigit_save_content root url b1 m1 a1 fe1
        (applyEvents (FsEvent.lockAcquire ::
          wikigit_save_body root url b2 m2 a2 fe2 ++ [FsEvent.lockRelease]) σ)
      rw [wikigit_save_events, lockedRun, List.take_length] at hc
      exact hc

/-- Witness for C4: the sequential schedule of two concrete locked saves
respects the lock discipline, and the final file content is one of the two
complete records. -/
theorem wikigit_locked_save_atomic_witness :
    lockSteps none
      ((wikigit_save_events (lc "c") (lc "u") (lc "x") [] none true).map (fun e => (false, e)) ++
       (wikigit_save_events (lc "c") (lc "u") (lc "y") [] none true).map (fun e => (true, e))) =
      true ∧
    (applyEvents
        ((((wikigit_save_events (lc "c") (lc "u") (lc "x") [] none true).map
            (fun e => (false, e))) ++
          ((wikigit_save_events (lc "c") (lc "u") (lc "y") [] none true).map
            (fun e => (true, e)))).map Prod.snd)
        (fun _ => none) (wikiPath (lc "c") (lc "u")) = some (pageFileContent [] (lc "x")) ∨
     applyEvents
        ((((wikigit_save_events (lc "c") (lc "u") (lc "x") [] none true).map
            (fun e => (false, e))) ++
          ((wikigit_save_events (lc "c") (lc "u") (lc "y") [] none true).map
            (fun e => (true, e)))).map Prod.snd)
        (fun _ => none) (wikiPath (lc "c") (lc "u")) = some (pageFileContent [] (lc "y"))) :=
  ⟨by decide,
   wikigit_locked_save_atomic.2 (lc "c") (lc "u") (lc "x") (lc "y") [] [] none none true true
     (fun _ => none) _ (interleave_append _ _) (by decide)⟩

theorem hexlify_length (s : List Nat) : (hexlify s).length = 2 * s.length := by
  induction s with
  | nil => rfl
  | cons b rest ih =>
    show (hexDigitCode (b / 16) :: hexDigitCode (b % 16) :: hexlify rest).length = _
    simp [ih]
    omega

theorem hexVal_hexDigitCode : ∀ n < 16, hexVal (hexDigitCode n) = n := by decide

theorem unhexlify_hexlify (s : List Nat) (h : ∀ b ∈ s, b < 256) :
    unhexlify (hexlify s) = s := by
  induction s with
  | nil => rfl
  | cons b rest ih =>
    show unhexlify (hexDigitCode (b / 16) :: hexDigitCode (b % 16) :: hexlify rest) = b :: rest
    show (hexVal (hexDigitCode (b / 16)) * 16 + hexVal (hexDigitCode (b % 16))) ::
      unhexlify (hexlify rest) = b :: rest
    have hb : b < 256 := h b (List.mem_cons_self _ _)
    rw [hexVal_hexDigitCode (b / 16) (by omega), hexVal_hexDigitCode (b % 16) (by omega),
      ih fun x hx => h x (List.mem_cons_of_mem _ hx)]
    congr 1
    omega

set_option maxHeartbeats 8000000 in
/-- Claim C5: checking a candidate against a credential created with method
`hash` recomputes the salted hash from the stored salt and compares for
equality, where the stored credential is `hexlify(salt)` followed by the
SHA-512 hex digest of `salt[0:32] ++ secret ++ salt[32:64]` and the salt is
the 64 bytes decoded from the first 128 stored hex characters; hence for
every password and 64-byte salt the original password checks true, and in
the scenario — account `alice` created with password `s3cr3t` —
`check_hashed_password` returns `true` for `s3cr3t` and `false` for
`wrong` (the two SHA-512 digests differ, computed here in full). -/
theorem check_password_salted_hash_correct :
    (∀ password salt : List Nat, salt.length = 64 → (∀ b ∈ salt, b < 256) →
        check_hashed_password password (make_salted_hash password salt) = true) ∧
    (check_hashed_password (lcB "s3cr3t") aliceStored = true ∧
     check_hashed_password (lcB "wrong") aliceStored = false) := by
  constructor
  · intro password salt hlen hbytes
    have h128 : (hexlify salt).length = 128 := by rw [hexlify_length, hlen]
    have hkey : unhexlify ((make_salted_hash password salt).take 128) = salt := by
      rw [make_salted_hash, List.take_left' h128, unhexlify_hexlify salt hbytes]
    simp only [check_hashed_password]
    rw [hkey]
    exact beq_self_eq_true _
  · exact ⟨by decide, by decide⟩

/-- Witness for C5's universal part, at password `pw` and the sample salt. -/
theorem check_password_salted_hash_correct_witness :
    aliceSalt.length = 64 ∧
    check_hashed_password (lcB "pw") (make_salted_hash (lcB "pw") aliceSalt) = true :=
  ⟨by decide, check_password_salted_hash_correct.1 (lcB "pw") aliceSalt (by decide) (by decide)⟩
